import Mathlib

/-!
Verification development for the al60 graph library.

Shallow embedding of src/al60/data/graphs.py, src/al60/data/iterators.py and
src/al60/algorithms.py.  Modelling conventions:

* Python nodes are arbitrary hashable values; we instantiate them with naturals.
  Python truthiness of a node (used by the iterators in the form `if u:`) is
  modelled as the test `u ≠ 0`.
* Python dicts (`_a_in`, `_a_out`, `_weights`) are modelled as Option-valued
  maps, `none` meaning "key absent".  Where the source indexes a dict whose key
  is guaranteed present in every API-reachable state (or where a KeyError is
  caught, as in `_verify_edge_undefined`), the embedding reads the map with
  default `∅`/`0`; theorems that rely on key presence carry explicit
  well-formedness hypotheses.
* Edge weights (Python floats) are modelled as rationals; the `math.inf`
  distances of the Dijkstra iterator are modelled as `Option ℚ` with `none`
  standing for infinity.
* Mutating methods raise `ValueError`; an operation is modelled as a function
  returning the state after the call together with an optional error, so that
  partial mutation before a raise is observable.
* Iteration order over Python sets is unspecified; the embedding iterates sets
  in ascending order, and the heapdict's unspecified tie-break is determinized
  to the smallest minimal node.  The proved properties are insensitive to these
  choices.
-/

/- `Rat.add` is `@[irreducible]` in Batteries, which blocks `decide` when
evaluating the embedding on concrete weighted graphs; restore the default
reducibility for this file. -/
attribute [local semireducible] Rat.add

/-- The error conditions signalled by the library via `ValueError`, named after
the spec's error vocabulary. -/
inductive Err where
  | nodeNotDefined
  | nodeAlreadyDefined
  | edgeNotDefined
  | edgeAlreadyDefined
  | unreachable
  deriving DecidableEq

/-- The state of a `Graph` object: node set, in/out adjacency dicts and the
weight dict, plus the default weight (`graphs.py`, `Graph.__init__`). -/
structure Graph where
  nodes : Finset ℕ
  aIn : ℕ → Option (Finset ℕ)
  aOut : ℕ → Option (Finset ℕ)
  weights : ℕ → ℕ → Option ℚ
  defaultWeight : ℚ

/-- Read `_a_out[u]`, defaulting to `∅` when the key is absent. -/
def aOutD (g : Graph) (u : ℕ) : Finset ℕ := (g.aOut u).getD ∅

/-- Read `_a_in[v]`, defaulting to `∅` when the key is absent. -/
def aInD (g : Graph) (v : ℕ) : Finset ℕ := (g.aIn v).getD ∅

/-- `Graph()` without a graph to copy: the empty graph
(`Graph.__init__`, else branch). -/
def Graph.empty (default_weight : ℚ) : Graph :=
  ⟨∅, fun _ => none, fun _ => none, fun _ _ => none, default_weight⟩

/-- `Graph.edges`: the set of pairs `(u, v)` with `u` a node and
`v ∈ _a_out[u]`. -/
def Graph.edges (g : Graph) : Finset (ℕ × ℕ) :=
  g.nodes.biUnion (fun u => (aOutD g u).image (fun v => (u, v)))

/-- `Graph.__init__` with a graph to copy: nodes and the two adjacency dicts
are copied key by key, and the weight dict is rebuilt mapping every edge of the
copy to `default_weight` (the weights of `other` are not consulted). -/
def Graph.copy (other : Graph) (default_weight : ℚ) : Graph :=
  let base : Graph :=
    ⟨other.nodes, other.aIn, other.aOut, fun _ _ => none, default_weight⟩
  { base with weights := fun u v => if (u, v) ∈ base.edges then some default_weight else none }

/-- `Graph.nodes()` returns (a copy of) the node set. -/
def Graph.nodesQ (g : Graph) : Finset ℕ := g.nodes

/-- `Graph.neighbors(u)`: verify `u` defined, then return `_a_out[u]`. -/
def Graph.neighbors (g : Graph) (u : ℕ) : Except Err (Finset ℕ) :=
  if u ∉ g.nodes then .error .nodeNotDefined else .ok (aOutD g u)

/-- `Graph.parents(v)`: verify `v` defined, then return `_a_in[v]`. -/
def Graph.parents (g : Graph) (v : ℕ) : Except Err (Finset ℕ) :=
  if v ∉ g.nodes then .error .nodeNotDefined else .ok (aInD g v)

/-- `Graph.weight(u, v)`: `_verify_edge_defined` then read `_weights[(u, v)]`. -/
def Graph.weight (g : Graph) (u v : ℕ) : Except Err ℚ :=
  if u ∉ g.nodes then .error .nodeNotDefined
  else if v ∉ g.nodes then .error .nodeNotDefined
  else if v ∉ aOutD g u then .error .edgeNotDefined
  else .ok ((g.weights u v).getD 0)

/-- `Graph.add_node`: verify undefined, then add the node with empty in/out
adjacency entries. -/
def Graph.add_node (g : Graph) (u : ℕ) : Graph × Option Err :=
  if u ∈ g.nodes then (g, some .nodeAlreadyDefined)
  else
    ({ g with
        nodes := insert u g.nodes,
        aIn := fun x => if x = u then some ∅ else g.aIn x,
        aOut := fun x => if x = u then some ∅ else g.aOut x }, none)

/-- The `for name in nodes: self.add_node(name)` loop of `add_nodes`,
stopping at the first error (with the partial mutation kept). -/
def Graph.addNodesGo (g : Graph) : List ℕ → Graph × Option Err
  | [] => (g, none)
  | n :: rest =>
    match g.add_node n with
    | (g1, some e) => (g1, some e)
    | (g1, none) => g1.addNodesGo rest

/-- `Graph.add_nodes`: raise if any requested name intersects the defined
nodes, otherwise add them one by one. -/
def Graph.add_nodes (g : Graph) (l : List ℕ) : Graph × Option Err :=
  if (l.toFinset ∩ g.nodes).Nonempty then (g, some .nodeAlreadyDefined)
  else g.addNodesGo l

/-- Python truthiness of the optional `weight` parameter of `add_edge`
(`if weight:`): `None`, `0` and `0.0` are falsy. -/
def truthyW : Option ℚ → Bool
  | none => false
  | some q => q != 0

/-- `Graph.add_edge(u, v, weight)`: verify both nodes defined and the edge
undefined (`_verify_edge_undefined` swallows the KeyError of an absent key),
record the edge in both adjacency dicts, then store the weight — the given one
if truthy, the default otherwise. -/
def Graph.add_edge (g : Graph) (u v : ℕ) (weight : Option ℚ) : Graph × Option Err :=
  if u ∉ g.nodes then (g, some .nodeNotDefined)
  else if v ∉ g.nodes then (g, some .nodeNotDefined)
  else if v ∈ aOutD g u then (g, some .edgeAlreadyDefined)
  else
    ({ g with
        aIn := fun x => if x = v then some (insert u (aInD g v)) else g.aIn x,
        aOut := fun x => if x = u then some (insert v (aOutD g u)) else g.aOut x,
        weights := fun x y =>
          if x = u ∧ y = v then
            some (if truthyW weight then weight.getD 0 else g.defaultWeight)
          else g.weights x y }, none)

/-- `Graph.remove_node(u)`: verify defined, then remove `u` from the node set
and delete its two adjacency dict entries.  Nothing else is touched: edges
into/out of `u` recorded in other nodes' adjacency sets and weight entries
survive. -/
def Graph.remove_node (g : Graph) (u : ℕ) : Graph × Option Err :=
  if u ∉ g.nodes then (g, some .nodeNotDefined)
  else
    ({ g with
        nodes := g.nodes.erase u,
        aIn := fun x => if x = u then none else g.aIn x,
        aOut := fun x => if x = u then none else g.aOut x }, none)

/-- `Graph.remove_edge(u, v)`: `_verify_edge_defined`, then remove `v` from
`_a_out[u]` and `u` from `_a_in[v]`.  The `_weights` entry is not deleted. -/
def Graph.remove_edge (g : Graph) (u v : ℕ) : Graph × Option Err :=
  if u ∉ g.nodes then (g, some .nodeNotDefined)
  else if v ∉ g.nodes then (g, some .nodeNotDefined)
  else if v ∉ aOutD g u then (g, some .edgeNotDefined)
  else
    ({ g with
        aOut := fun x => if x = u then some ((aOutD g u).erase v) else g.aOut x,
        aIn := fun x => if x = v then some ((aInD g v).erase u) else g.aIn x }, none)

/-- `Undirected.__init__(graph)`: `super().__init__(graph)` with the default
`default_weight = 1`, i.e. copy construction. -/
def Undirected.ofGraph (graph : Graph) : Graph := Graph.copy graph 1

/-- `Unweighted.__init__(graph)`: `super().__init__(graph, default_weight=1)`. -/
def Unweighted.ofGraph (graph : Graph) : Graph := Graph.copy graph 1

/-- `Undirected.neighbors(u)`: the union of out- and in-adjacency. -/
def Undirected.neighbors (g : Graph) (u : ℕ) : Except Err (Finset ℕ) :=
  if u ∉ g.nodes then .error .nodeNotDefined else .ok (aOutD g u ∪ aInD g u)

/-- `Undirected.add_edge(u, v, weight)`: additionally verify that the reversed
edge `(v, u)` is undefined, then delegate to `Graph.add_edge` (which records
only the direction `(u, v)`). -/
def Undirected.add_edge (g : Graph) (u v : ℕ) (weight : Option ℚ) : Graph × Option Err :=
  if u ∉ g.nodes then (g, some .nodeNotDefined)
  else if v ∉ g.nodes then (g, some .nodeNotDefined)
  else if u ∈ aOutD g v then (g, some .edgeAlreadyDefined)
  else g.add_edge u v weight

/-- `Undirected.remove_edge(u, v)`: if `(u, v)` is stored remove it; then if
`(v, u)` is stored remove it, ELSE raise — the else clause belongs to the
second `if` only, so the call raises whenever the direction `(v, u)` is not
stored, even after having just removed `(u, v)`. -/
def Undirected.remove_edge (g : Graph) (u v : ℕ) : Graph × Option Err :=
  let g1 :=
    if v ∈ aOutD g u then
      { g with
          aOut := fun x => if x = u then some ((aOutD g u).erase v) else g.aOut x,
          aIn := fun x => if x = v then some ((aInD g v).erase u) else g.aIn x }
    else g
  if u ∈ aOutD g1 v then
    ({ g1 with
        aOut := fun x => if x = v then some ((aOutD g1 v).erase u) else g1.aOut x,
        aIn := fun x => if x = u then some ((aInD g1 u).erase v) else g1.aIn x }, none)
  else (g1, some .edgeNotDefined)

/-- The documented class invariant of `Graph` (docstring "INVARIANTS: 1.")
together with the spec's weight-entry invariant. -/
def GraphInv (g : Graph) : Prop :=
  (∀ u v, v ∈ aOutD g u ↔ u ∈ aInD g v) ∧
  (∀ u v, (g.weights u v).isSome ↔ v ∈ aOutD g u)

/-- Keys of the adjacency dicts are exactly the defined nodes (holds in every
API-reachable state; used where the source indexes the dicts directly). -/
def WfKeys (g : Graph) : Prop :=
  ∀ u ∈ g.nodes, (g.aOut u).isSome ∧ (g.aIn u).isSome

instance (g : Graph) : Decidable (WfKeys g) := by
  unfold WfKeys; infer_instance

/-! Concrete graphs used to exercise the mutation API.  Each is produced by
the public constructors/mutators only, mirroring a Python session. -/

/-- `g = Graph(); g.add_node(1); g.add_node(2); g.add_edge(1, 2)`. -/
def gEx12 : Graph :=
  ((((Graph.empty 1).add_node 1).1.add_node 2).1.add_edge 1 2 none).1

/-- `gEx12` after `g.remove_edge(1, 2)`. -/
def gRemE : Graph := (gEx12.remove_edge 1 2).1

/-- `gEx12` after `g.remove_node(2)`. -/
def gRemN : Graph := (gEx12.remove_node 2).1

/-- A `Graph` with `default_weight=5` and nodes 1, 2. -/
def gDw5 : Graph := (((Graph.empty 5).add_node 1).1.add_node 2).1

/-- `u = Undirected(Graph()); u.add_nodes(1, 2); u.add_edge(1, 2)`: the edge is
stored in the direction `(1, 2)` only. -/
def gUnd12 : Graph :=
  (Undirected.add_edge ((Undirected.ofGraph (Graph.empty 1)).add_nodes [1, 2]).1 1 2 none).1

example : gEx12.nodes = {1, 2} := by decide
example : aOutD gEx12 1 = {2} ∧ aInD gEx12 2 = {1} := by decide
example : gEx12.weights 1 2 = some 1 := by decide
example : 2 ∈ aOutD gUnd12 1 ∧ 1 ∉ aOutD gUnd12 2 := by decide

/-- C1: after the public mutations `remove_edge` and `remove_node` the
documented invariant fails: `remove_edge(1, 2)` leaves the weight entry for
`(1, 2)` although the edge is gone, and `remove_node(2)` leaves `2` in the
out-adjacency of `1` while `1` is no longer in the (deleted) in-adjacency of
`2`.  The invariant claimed to hold after every public operation is violated. -/
theorem invariant_broken_by_removals :
    ((gRemE.weights 1 2).isSome ∧ 2 ∉ aOutD gRemE 1 ∧ ¬ GraphInv gRemE) ∧
    (2 ∈ aOutD gRemN 1 ∧ 1 ∉ aInD gRemN 2 ∧ ¬ GraphInv gRemN) := by
  refine ⟨⟨by decide, by decide, fun h => ?_⟩, ⟨by decide, by decide, fun h => ?_⟩⟩
  · exact absurd ((h.2 1 2).mp (by decide)) (by decide)
  · exact absurd ((h.1 1 2).mp (by decide)) (by decide)

/-- C3: `remove_node(2)` on the graph with edge `(1, 2)` succeeds, removes `2`
from the node set, but leaves the incident edge behind: `edges()` still
contains `(1, 2)` and `neighbors(1)` still returns `{2}`. -/
theorem remove_node_leaves_incident_edges :
    (gEx12.remove_node 2).2 = none ∧ 2 ∉ gRemN.nodes ∧
    (1, 2) ∈ gRemN.edges ∧ 2 ∈ aOutD gRemN 1 ∧ gRemN.neighbors 1 = .ok {2} := by
  refine ⟨by decide, by decide, by decide, by decide, rfl⟩

/-- C4: on the undirected graph whose logical edge 1–2 is stored in the single
direction `(1, 2)`, `remove_edge(1, 2)` removes that direction and then raises
EdgeNotDefined anyway — the call fails although a direction existed, and the
graph is mutated by the failing call. -/
theorem undirected_remove_edge_raises_after_removing :
    2 ∈ aOutD gUnd12 1 ∧ 1 ∉ aOutD gUnd12 2 ∧
    (Undirected.remove_edge gUnd12 1 2).2 = some .edgeNotDefined ∧
    2 ∉ aOutD (Undirected.remove_edge gUnd12 1 2).1 1 := by
  refine ⟨by decide, by decide, by decide, by decide⟩

/-- C7: `add_nodes` is atomic in the collision case — if any requested name is
already defined, the call fails and the node set is unchanged (the
intersection test precedes any mutation). -/
theorem add_nodes_atomic (g : Graph) (l : List ℕ) (h : ∃ x ∈ l, x ∈ g.nodes) :
    (g.add_nodes l).2.isSome ∧ (g.add_nodes l).1.nodes = g.nodes := by
  have hne : (l.toFinset ∩ g.nodes).Nonempty := by
    obtain ⟨x, hxl, hxg⟩ := h
    exact ⟨x, Finset.mem_inter.mpr ⟨List.mem_toFinset.mpr hxl, hxg⟩⟩
  unfold Graph.add_nodes
  rw [if_pos hne]
  exact ⟨rfl, rfl⟩

/-- Witness for C7 at a concrete input: `add_nodes(5, 1)` on the graph with
nodes `{1, 2}` collides on `1`, fails, and leaves the node set unchanged. -/
theorem add_nodes_atomic_witness :
    (∃ x ∈ [5, 1], x ∈ gEx12.nodes) ∧
    ((gEx12.add_nodes [5, 1]).2.isSome ∧ (gEx12.add_nodes [5, 1]).1.nodes = gEx12.nodes) :=
  ⟨by decide, add_nodes_atomic gEx12 [5, 1] (by decide)⟩

/-- C8: `add_edge` stores weights through the falsy test `if weight:`, so an
explicitly supplied weight of 0 is replaced by the default weight (here 5)
instead of being stored as 0; an omitted weight also yields the default. -/
theorem add_edge_weight_zero_becomes_default :
    ((gDw5.add_edge 1 2 (some 0)).1.weights 1 2 = some 5) ∧
    ((gDw5.add_edge 1 2 (some 0)).1.weights 1 2 ≠ some 0) ∧
    ((gDw5.add_edge 1 2 none).1.weights 1 2 = some 5) ∧
    ((gDw5.add_edge 1 2 (some 7)).1.weights 1 2 = some 7) := by
  refine ⟨by decide, by decide, by decide, by decide⟩

/-- C10: copy construction keeps the node set and both adjacency dicts but
resets every edge's weight to the copy's default weight, ignoring the weights
of the source; the `Undirected` and `Unweighted` adapters are exactly copy
construction with default weight 1. -/
theorem copy_resets_weights (g : Graph) (d : ℚ) (_wf : WfKeys g) :
    (Graph.copy g d).nodes = g.nodes ∧
    (∀ u, (Graph.copy g d).aOut u = g.aOut u) ∧
    (∀ u, (Graph.copy g d).aIn u = g.aIn u) ∧
    (Graph.copy g d).edges = g.edges ∧
    (∀ u v, (u, v) ∈ g.edges → (Graph.copy g d).weights u v = some d) ∧
    (∀ u v, (u, v) ∉ g.edges → (Graph.copy g d).weights u v = none) ∧
    Undirected.ofGraph g = Graph.copy g 1 ∧ Unweighted.ofGraph g = Graph.copy g 1 := by
  refine ⟨rfl, fun u => rfl, fun u => rfl, rfl, fun u v huv => ?_, fun u v huv => ?_, rfl, rfl⟩
  · show (if (u, v) ∈ Graph.edges ⟨g.nodes, g.aIn, g.aOut, fun _ _ => none, d⟩
        then some d else none) = some d
    exact if_pos huv
  · show (if (u, v) ∈ Graph.edges ⟨g.nodes, g.aIn, g.aOut, fun _ _ => none, d⟩
        then some d else none) = none
    exact if_neg huv

/-- Witness for C10: copying the graph `{1, 2}` with edge `(1, 2)` of weight 1
using default weight 7 gives the same structure with the edge reweighted to
7. -/
theorem copy_resets_weights_witness :
    WfKeys gEx12 ∧
    ((Graph.copy gEx12 7).nodes = gEx12.nodes ∧
     (∀ u, (Graph.copy gEx12 7).aOut u = gEx12.aOut u) ∧
     (∀ u, (Graph.copy gEx12 7).aIn u = gEx12.aIn u) ∧
     (Graph.copy gEx12 7).edges = gEx12.edges ∧
     (∀ u v, (u, v) ∈ gEx12.edges → (Graph.copy gEx12 7).weights u v = some 7) ∧
     (∀ u v, (u, v) ∉ gEx12.edges → (Graph.copy gEx12 7).weights u v = none) ∧
     Undirected.ofGraph gEx12 = Graph.copy gEx12 1 ∧
     Unweighted.ofGraph gEx12 = Graph.copy gEx12 1) :=
  ⟨by decide, copy_resets_weights gEx12 7 (by decide)⟩

/-! Iterators (`iterators.py`).  The worklist deque is modelled as a list whose
head is the Python right end: `pop()` takes the head, `append` conses, and
`appendleft` appends at the tail.  `GraphIterator.__next__` tests the visited
node with `if u:`, so a falsy node (here: `0`) ends the iteration instead of
being yielded. -/

/-- Kernel-computable ascending enumeration of a multiset (insertion sort of
any representative; well-defined since sorting is permutation-invariant).
Used to iterate Python sets in a definite order. -/
def msort (m : Multiset ℕ) : List ℕ :=
  Quot.lift (fun l => List.insertionSort (· ≤ ·) l)
    (fun a b hab =>
      List.eq_of_perm_of_sorted
        ((List.perm_insertionSort _ a).trans (hab.trans (List.perm_insertionSort _ b).symm))
        (List.sorted_insertionSort _ a) (List.sorted_insertionSort _ b)) m

theorem msort_coe (m : Multiset ℕ) : (msort m : Multiset ℕ) = m := by
  induction m using Quotient.inductionOn with
  | h l => exact Quotient.sound (List.perm_insertionSort _ l)

/-- Ascending list of the elements of a finite set. -/
def sortFin (s : Finset ℕ) : List ℕ := msort s.1

theorem mem_sortFin {s : Finset ℕ} {x : ℕ} : x ∈ sortFin s ↔ x ∈ s := by
  have h := msort_coe s.1
  constructor
  · intro hx
    have : x ∈ (msort s.1 : Multiset ℕ) := by exact_mod_cast hx
    rw [h] at this
    exact this
  · intro hx
    have : x ∈ (msort s.1 : Multiset ℕ) := by rw [h]; exact hx
    exact_mod_cast this

theorem sortFin_nodup (s : Finset ℕ) : (sortFin s).Nodup := by
  have h := msort_coe s.1
  have : Multiset.Nodup (msort s.1 : Multiset ℕ) := by rw [h]; exact s.2
  exact_mod_cast this

/-- `_next_unvisited`: pop worklist entries until one still in `_remaining` is
found, returning it together with the worklist left after the pops. -/
def nextUnvisited (remaining : Finset ℕ) : List ℕ → Option (ℕ × List ℕ)
  | [] => none
  | c :: rest => if c ∈ remaining then some (c, rest) else nextUnvisited remaining rest

/-- The `__next__`/`_visit_next` loop of `DepthFirstIterator`, run to
exhaustion.  Neighbors are sorted (ascending, the `key=None` natural order),
reversed, and the unvisited ones pushed onto the stack; the loop stops early
when the visited node is falsy.  `fuel` only bounds the recursion; one unit is
spent per yielded node, so `remaining.card` units suffice. -/
def dfsGo (g : Graph) : ℕ → Finset ℕ → List ℕ → List ℕ
  | 0, _, _ => []
  | fuel+1, remaining, wl =>
    match nextUnvisited remaining wl with
    | none => []
    | some (u, rest) =>
      let nbrs := (sortFin (aOutD g u)).reverse
      let wl2 := nbrs.foldl (fun acc v => if v ∈ remaining then v :: acc else acc) rest
      if u = 0 then [] else u :: dfsGo g fuel (remaining.erase u) wl2

/-- The `__next__`/`_visit_next` loop of `BreadthFirstIterator`: neighbors are
sorted ascending and the unvisited ones are `appendleft`-ed (queue). -/
def bfsGo (g : Graph) : ℕ → Finset ℕ → List ℕ → List ℕ
  | 0, _, _ => []
  | fuel+1, remaining, wl =>
    match nextUnvisited remaining wl with
    | none => []
    | some (u, rest) =>
      let nbrs := sortFin (aOutD g u)
      let wl2 := nbrs.foldl (fun acc v => if v ∈ remaining then acc ++ [v] else acc) rest
      if u = 0 then [] else u :: bfsGo g fuel (remaining.erase u) wl2

/-- `list(DepthFirstIterator(g, start))`: construction verifies the start node,
then the iterator is driven to exhaustion. -/
def DepthFirstIterator (g : Graph) (start : ℕ) : Except Err (List ℕ) :=
  if start ∉ g.nodes then .error .nodeNotDefined
  else .ok (dfsGo g g.nodes.card g.nodes [start])

/-- `list(BreadthFirstIterator(g, start))`. -/
def BreadthFirstIterator (g : Graph) (start : ℕ) : Except Err (List ℕ) :=
  if start ∉ g.nodes then .error .nodeNotDefined
  else .ok (bfsGo g g.nodes.card g.nodes [start])

/-- The graph `g1` of the iterator test suite, with the string nodes renamed in
alphabetical order: a=1, b=2, c=3, u=4, x=5, y=6. -/
def gIterTest : Graph :=
  (((((((((Graph.empty 1).add_nodes [4, 1, 2, 3, 5, 6]).1.add_edge 4 1 none).1.add_edge
    1 4 none).1.add_edge 4 3 none).1.add_edge 3 1 none).1.add_edge
    3 2 none).1.add_edge 2 4 none).1.add_edge 5 6 none).1

instance {e a : Type} [DecidableEq e] [DecidableEq a] : DecidableEq (Except e a) := fun x y =>
  match x, y with
  | .error u, .error v =>
    if h : u = v then .isTrue (h ▸ rfl) else .isFalse (fun hh => h (Except.error.inj hh))
  | .ok u, .ok v =>
    if h : u = v then .isTrue (h ▸ rfl) else .isFalse (fun hh => h (Except.ok.inj hh))
  | .error _, .ok _ => .isFalse (fun hh => Except.noConfusion hh)
  | .ok _, .error _ => .isFalse (fun hh => Except.noConfusion hh)

example : DepthFirstIterator gIterTest 4 = .ok [4, 1, 3, 2] := by decide
example : DepthFirstIterator gIterTest 5 = .ok [5, 6] := by decide
example : BreadthFirstIterator gIterTest 4 = .ok [4, 1, 3, 2] := by decide

/-- The edge relation of a graph: `u` is a defined node and `v` is recorded in
its out-adjacency (equivalently, `(u, v) ∈ edges()`). -/
def hasEdge (g : Graph) (u v : ℕ) : Prop := u ∈ g.nodes ∧ v ∈ aOutD g u

instance (g : Graph) (u v : ℕ) : Decidable (hasEdge g u v) := by
  unfold hasEdge; infer_instance

/-- Reachability along directed edges, starting from `s` (which must be a
node). -/
inductive ReachI (g : Graph) (s : ℕ) : ℕ → Prop where
  | refl : s ∈ g.nodes → ReachI g s s
  | tail {u v : ℕ} : ReachI g s u → hasEdge g u v → ReachI g s v

/-- Graph with nodes {0, 1} and the edge `(1, 0)`: node `0` is reachable from
`1`. -/
def gFalsy : Graph :=
  ((((Graph.empty 1).add_node 1).1.add_node 0).1.add_edge 1 0 none).1

/-- C6: on the graph with edge `(1, 0)`, depth- and breadth-first iteration
from `1` stops at the falsy node `0` (`__next__` tests `if u:` instead of
`if u is not None:`), yielding only `[1]` although `0` is reachable; started at
`0` the traversal yields nothing at all. -/
theorem traversal_truncated_at_falsy_node :
    DepthFirstIterator gFalsy 1 = .ok [1] ∧ BreadthFirstIterator gFalsy 1 = .ok [1] ∧
    DepthFirstIterator gFalsy 0 = .ok [] ∧
    0 ∈ gFalsy.nodes ∧ hasEdge gFalsy 1 0 := by
  refine ⟨by decide, by decide, by decide, by decide, by decide⟩

/-! `DijkstraIterator` (`iterators.py`).  The heapdict worklist is modelled as
the pair of its key set `K` and the priority map `d`; `math.inf` is `none`.
`popitem` extracts a key of minimal priority (tie-break determinized to the
smallest node); the extracted node's outgoing edges are then relaxed against
the keys still in the worklist.  `WeightedGraphIterator.__next__` tests the
extracted node with `if u:`, so iteration also stops at a falsy node. -/

/-- `a ≤ b` on distances, `none` meaning `math.inf`. -/
def dLeB : Option ℚ → Option ℚ → Bool
  | _, none => true
  | none, some _ => false
  | some x, some y => decide (x ≤ y)

/-- `a < b` on distances, `none` meaning `math.inf`. -/
def dLtB : Option ℚ → Option ℚ → Bool
  | none, _ => false
  | some _, none => true
  | some x, some y => decide (x < y)

/-- `d_u + l_uv` (`inf + w = inf`). -/
def dAdd (a : Option ℚ) (w : ℚ) : Option ℚ := a.map (· + w)

/-- The weight read by the relaxation step, `self._graph.weight(u, v)`: the
`_weights` entry of an edge that is known to exist (for well-formed weighted
graphs the entry is present; see `WeightsOk` below). -/
def wOf (g : Graph) (u v : ℕ) : ℚ := (g.weights u v).getD 0

/-- `heapdict.popitem()` determinized: a key of minimal priority, ties going to
the earliest key of the (ascending) list. -/
def pickMinD (d : ℕ → Option ℚ) : List ℕ → ℕ
  | [] => 0
  | [u] => u
  | u :: v :: rest =>
    let m := pickMinD d (v :: rest)
    if dLtB (d m) (d u) then m else u

/-- The relaxation loop of `DijkstraIterator._visit_next`: for each neighbor
`v` of `u` (in sorted order) still in the worklist `K`, lower its priority to
`d_u + l_uv` when that improves it. -/
def relaxStep (g : Graph) (K : Finset ℕ) (du : Option ℚ) (u : ℕ)
    (dd : ℕ → Option ℚ) (v : ℕ) : ℕ → Option ℚ :=
  if v ∈ K then
    if dLtB (dAdd du (wOf g u v)) (dd v) then
      Function.update dd v (dAdd du (wOf g u v))
    else dd
  else dd

def relaxAll (g : Graph) (K : Finset ℕ) (du : Option ℚ) (u : ℕ)
    (d : ℕ → Option ℚ) : ℕ → Option ℚ :=
  (sortFin (aOutD g u)).foldl (relaxStep g K du u) d

/-- The pop/relax loop of the Dijkstra iterator, producing the list of all
`(node, distance)` pairs in pop order.  One fuel unit is spent per pop and each
pop removes a key, so `K.card` units run the loop to completion. -/
def dijkstraGo (g : Graph) : ℕ → Finset ℕ → (ℕ → Option ℚ) → List (ℕ × Option ℚ)
  | 0, _, _ => []
  | fuel+1, K, d =>
    if K.card = 0 then []
    else
      let u := pickMinD d (sortFin K)
      (u, d u) :: dijkstraGo g fuel (K.erase u) (relaxAll g (K.erase u) (d u) u d)

/-- `DijkstraIterator.__init__` plus the pop/relax loop run until the heapdict
is empty: every node starts at `inf`, the start node at `0`. -/
def dijkstraVisits (g : Graph) (s : ℕ) : Except Err (List (ℕ × Option ℚ)) :=
  if s ∉ g.nodes then .error .nodeNotDefined
  else .ok (dijkstraGo g g.nodes.card g.nodes (fun u => if u = s then some 0 else none))

/-- `list(DijkstraIterator(g, start))`: the visit sequence truncated at the
first falsy node (`WeightedGraphIterator.__next__` raises `StopIteration` when
`if u:` fails). -/
def DijkstraIterator (g : Graph) (start : ℕ) : Except Err (List (ℕ × Option ℚ)) :=
  (dijkstraVisits g start).map (List.takeWhile (fun p => p.1 != 0))

/-- The loop of `algorithms.shortest_path`: append each yielded node to the
accumulated list and return it as soon as `t` is yielded; raise if the iterator
exhausts first. -/
def shortestPathGo (t : ℕ) : List ℕ → List (ℕ × Option ℚ) → Except Err (List ℕ)
  | _, [] => .error .unreachable
  | path, (u, _) :: rest =>
    if u = t then .ok (path ++ [u]) else shortestPathGo t (path ++ [u]) rest

/-- `algorithms.shortest_path(g, s, t)`. -/
def shortest_path (g : Graph) (s t : ℕ) : Except Err (List ℕ) :=
  match DijkstraIterator g s with
  | .error e => .error e
  | .ok ys => shortestPathGo t [] ys

/-- The loop of `algorithms.distance`. -/
def distanceGo (t : ℕ) : List (ℕ × Option ℚ) → Except Err (Option ℚ)
  | [] => .error .unreachable
  | (u, du) :: rest => if u = t then .ok du else distanceGo t rest

/-- `algorithms.distance(g, s, t)`. -/
def distance (g : Graph) (s t : ℕ) : Except Err (Option ℚ) :=
  match DijkstraIterator g s with
  | .error e => .error e
  | .ok ys => distanceGo t ys

/-- The weighted graph `g4`/`g1` of the algorithm/iterator test suites
(a=1, b=2, c=3, d=4, e=5). -/
def gDij : Graph :=
  (((((((((((Graph.empty 1).add_nodes [1, 2, 3, 4, 5]).1.add_edge 1 2 (some 10)).1.add_edge
    1 3 (some 3)).1.add_edge 2 3 (some 1)).1.add_edge 2 4 (some 2)).1.add_edge
    3 2 (some 4)).1.add_edge 3 4 (some 8)).1.add_edge 3 5 (some 2)).1.add_edge
    4 5 (some 7)).1.add_edge 5 4 (some 9)).1

example :
    DijkstraIterator gDij 1 =
      .ok [(1, some 0), (3, some 3), (5, some 5), (2, some 7), (4, some 9)] := by decide
example : distance gDij 1 4 = .ok (some 9) := by decide

/-- Two isolated nodes 1 and 2: `2` is unreachable from `1`. -/
def gIso : Graph := (((Graph.empty 1).add_node 1).1.add_node 2).1

/-- C2: the Dijkstra worklist is seeded with every node of the graph, so the
iterator yields unreachable nodes too (at distance `inf`); `shortest_path` and
`distance` therefore find the target and return normally instead of raising
the documented Unreachable error. -/
theorem shortest_path_no_unreachable_error :
    ¬ ReachI gIso 1 2 ∧
    shortest_path gIso 1 2 = .ok [1, 2] ∧ distance gIso 1 2 = .ok none := by
  have key : ∀ x, ReachI gIso 1 x → x = 1 := by
    intro x h
    induction h with
    | refl => rfl
    | tail hr he ih =>
      rw [ih] at he
      have h2 := he.2
      have hout : aOutD gIso 1 = ∅ := by decide
      rw [hout] at h2
      exact absurd h2 (Finset.not_mem_empty _)
  refine ⟨fun h => ?_, by decide, by decide⟩
  exact absurd (key 2 h) (by decide)

/-! Order lemmas for the distance domain `Option ℚ` (`none` = `math.inf`). -/

theorem dLeB_refl (a : Option ℚ) : dLeB a a = true := by
  cases a <;> simp [dLeB]

theorem dLeB_none_right (a : Option ℚ) : dLeB a none = true := by
  cases a <;> simp [dLeB]

theorem dLeB_some_some {x y : ℚ} : dLeB (some x) (some y) = true ↔ x ≤ y := by
  simp [dLeB]

theorem dLeB_none_some (y : ℚ) : dLeB none (some y) = false := by
  simp [dLeB]

theorem dLeB_trans {a b c : Option ℚ} (h1 : dLeB a b = true) (h2 : dLeB b c = true) :
    dLeB a c = true := by
  cases a <;> cases b <;> cases c <;> simp_all [dLeB]
  exact le_trans h1 h2

theorem dLeB_of_dLtB {a b : Option ℚ} (h : dLtB a b = true) : dLeB a b = true := by
  cases a <;> cases b <;> simp_all [dLeB, dLtB]
  exact le_of_lt h

theorem dLeB_of_not_dLtB {a b : Option ℚ} (h : dLtB a b = false) : dLeB b a = true := by
  cases a <;> cases b <;> simp_all [dLeB, dLtB]

theorem dAdd_some (q w : ℚ) : dAdd (some q) w = some (q + w) := rfl

theorem dAdd_none (w : ℚ) : dAdd none w = none := rfl

theorem dLeB_dAdd (a : Option ℚ) {w : ℚ} (hw : 0 ≤ w) : dLeB a (dAdd a w) = true := by
  cases a with
  | none => simp [dAdd, dLeB]
  | some q => simp [dAdd, dLeB]; linarith

theorem dAdd_eq_some {a : Option ℚ} {w q : ℚ} (h : dAdd a w = some q) :
    ∃ x, a = some x ∧ q = x + w := by
  cases a with
  | none => simp [dAdd] at h
  | some x => exact ⟨x, rfl, by simpa [dAdd] using h.symm⟩

/-! Lemmas about the determinized `heapdict.popitem`. -/

theorem pickMinD_mem (d : ℕ → Option ℚ) : ∀ (l : List ℕ), l ≠ [] → pickMinD d l ∈ l := by
  intro l
  induction l with
  | nil => intro h; exact absurd rfl h
  | cons u t ih =>
    intro _
    cases t with
    | nil => simp [pickMinD]
    | cons v rest =>
      simp only [pickMinD]
      by_cases h : dLtB (d (pickMinD d (v :: rest))) (d u) = true
      · rw [if_pos h]
        exact List.mem_cons_of_mem u (ih (by simp))
      · rw [if_neg h]
        exact List.mem_cons_self u _

theorem pickMinD_min (d : ℕ → Option ℚ) :
    ∀ (l : List ℕ), ∀ x ∈ l, dLeB (d (pickMinD d l)) (d x) = true := by
  intro l
  induction l with
  | nil => intro x hx; exact absurd hx (List.not_mem_nil x)
  | cons u t ih =>
    intro x hx
    cases t with
    | nil =>
      rcases List.mem_cons.mp hx with h | h
      · subst h; simp [pickMinD, dLeB_refl]
      · exact absurd h (List.not_mem_nil x)
    | cons v rest =>
      simp only [pickMinD]
      by_cases h : dLtB (d (pickMinD d (v :: rest))) (d u) = true
      · rw [if_pos h]
        rcases List.mem_cons.mp hx with hxu | hxm
        · subst hxu; exact dLeB_of_dLtB h
        · exact ih x hxm
      · rw [if_neg h]
        rcases List.mem_cons.mp hx with hxu | hxm
        · subst hxu; exact dLeB_refl _
        · exact dLeB_trans (dLeB_of_not_dLtB (Bool.eq_false_iff.mpr h)) (ih x hxm)

/-! Characterization of the relaxation fold. -/

theorem relax_foldl_not_mem (g : Graph) (K : Finset ℕ) (du : Option ℚ) (u : ℕ) :
    ∀ (l : List ℕ) (dd : ℕ → Option ℚ) (x : ℕ), x ∉ l →
      (l.foldl (relaxStep g K du u) dd) x = dd x := by
  intro l
  induction l with
  | nil => intro dd x _; rfl
  | cons h t ih =>
    intro dd x hx
    have hxh : x ≠ h := fun he => hx (he ▸ List.mem_cons_self h t)
    have hxt : x ∉ t := fun hm => hx (List.mem_cons_of_mem h hm)
    simp only [List.foldl_cons]
    rw [ih _ x hxt]
    unfold relaxStep
    by_cases h1 : h ∈ K
    · rw [if_pos h1]
      by_cases h2 : dLtB (dAdd du (wOf g u h)) (dd h) = true
      · rw [if_pos h2]
        exact Function.update_noteq hxh _ dd
      · rw [if_neg h2]
    · rw [if_neg h1]

theorem relax_foldl_apply (g : Graph) (K : Finset ℕ) (du : Option ℚ) (u : ℕ) :
    ∀ (l : List ℕ) (dd : ℕ → Option ℚ) (x : ℕ), l.Nodup →
      (l.foldl (relaxStep g K du u) dd) x =
        if x ∈ l ∧ x ∈ K ∧ dLtB (dAdd du (wOf g u x)) (dd x) = true
        then dAdd du (wOf g u x) else dd x := by
  intro l
  induction l with
  | nil => intro dd x _; simp
  | cons h t ih =>
    intro dd x hnd
    have hht : h ∉ t := (List.nodup_cons.mp hnd).1
    have hth : t.Nodup := (List.nodup_cons.mp hnd).2
    simp only [List.foldl_cons]
    by_cases hxh : x = h
    · subst hxh
      rw [relax_foldl_not_mem g K du u t _ x hht]
      unfold relaxStep
      by_cases h1 : x ∈ K
      · by_cases h2 : dLtB (dAdd du (wOf g u x)) (dd x) = true
        · simp [h1, h2, Function.update_same]
        · simp [h1, h2]
      · simp [h1]
    · rw [ih _ x hth]
      have hstep : relaxStep g K du u dd h x = dd x := by
        unfold relaxStep
        by_cases h1 : h ∈ K
        · rw [if_pos h1]
          by_cases h2 : dLtB (dAdd du (wOf g u h)) (dd h) = true
          · rw [if_pos h2]
            exact Function.update_noteq hxh _ dd
          · rw [if_neg h2]
        · rw [if_neg h1]
      rw [hstep]
      by_cases hxt : x ∈ t
      · simp [hxt, List.mem_cons, hxh]
      · simp [hxt, hxh]

theorem relaxAll_apply (g : Graph) (K : Finset ℕ) (du : Option ℚ) (u : ℕ)
    (d : ℕ → Option ℚ) (v : ℕ) :
    relaxAll g K du u d v =
      if v ∈ aOutD g u ∧ v ∈ K ∧ dLtB (dAdd du (wOf g u v)) (d v) = true
      then dAdd du (wOf g u v) else d v := by
  unfold relaxAll
  rw [relax_foldl_apply g K du u _ d v (sortFin_nodup _)]
  simp [mem_sortFin]

theorem relaxAll_le (g : Graph) (K : Finset ℕ) (du : Option ℚ) (u : ℕ)
    (d : ℕ → Option ℚ) (v : ℕ) : dLeB (relaxAll g K du u d v) (d v) = true := by
  rw [relaxAll_apply]
  by_cases h : v ∈ aOutD g u ∧ v ∈ K ∧ dLtB (dAdd du (wOf g u v)) (d v) = true
  · rw [if_pos h]; exact dLeB_of_dLtB h.2.2
  · rw [if_neg h]; exact dLeB_refl _

theorem relaxAll_le_cand (g : Graph) (K : Finset ℕ) (du : Option ℚ) (u : ℕ)
    (d : ℕ → Option ℚ) {v : ℕ} (hvK : v ∈ K) (hva : v ∈ aOutD g u) :
    dLeB (relaxAll g K du u d v) (dAdd du (wOf g u v)) = true := by
  rw [relaxAll_apply]
  by_cases h2 : dLtB (dAdd du (wOf g u v)) (d v) = true
  · rw [if_pos ⟨hva, hvK, h2⟩]; exact dLeB_refl _
  · rw [if_neg (fun hc => h2 hc.2.2)]
    exact dLeB_of_not_dLtB (Bool.eq_false_iff.mpr h2)

theorem relaxAll_cases (g : Graph) (K : Finset ℕ) (du : Option ℚ) (u : ℕ)
    (d : ℕ → Option ℚ) (v : ℕ) :
    relaxAll g K du u d v = d v ∨
      (v ∈ aOutD g u ∧ v ∈ K ∧ relaxAll g K du u d v = dAdd du (wOf g u v)) := by
  rw [relaxAll_apply]
  by_cases h : v ∈ aOutD g u ∧ v ∈ K ∧ dLtB (dAdd du (wOf g u v)) (d v) = true
  · rw [if_pos h]; exact Or.inr ⟨h.1, h.2.1, rfl⟩
  · rw [if_neg h]; exact Or.inl rfl

/-! Walks and shortest-path distances.  A walk is represented by its endpoint,
its total weight, and the finite set of its vertices other than the last
(which is exactly the set of vertices a new step inserts). -/

/-- Well-formedness for weighted traversal: every edge has a stored weight
entry and that weight is non-negative (the non-negativity precondition of
Dijkstra's algorithm). -/
def WeightsOk (g : Graph) : Prop :=
  ∀ u ∈ g.nodes, ∀ v ∈ aOutD g u, (g.weights u v).isSome ∧ 0 ≤ wOf g u v

instance (g : Graph) : Decidable (WeightsOk g) := by
  unfold WeightsOk; infer_instance

/-- Out-adjacency stays inside the node set. -/
def EdgesClosed (g : Graph) : Prop := ∀ u ∈ g.nodes, aOutD g u ⊆ g.nodes

instance (g : Graph) : Decidable (EdgesClosed g) := by
  unfold EdgesClosed; infer_instance

/-- `WalkI g s t c V`: there is a directed walk from `s` to `t` of total weight
`c` whose vertices other than the final one form the set `V`. -/
inductive WalkI (g : Graph) (s : ℕ) : ℕ → ℚ → Finset ℕ → Prop where
  | refl : s ∈ g.nodes → WalkI g s s 0 ∅
  | tail {u v : ℕ} {c : ℚ} {V : Finset ℕ} :
      WalkI g s u c V → hasEdge g u v → WalkI g s v (c + wOf g u v) (insert u V)

/-- `ShortestOpt g s t o`: `o` is the infimum of walk weights from `s` to `t` —
a finite value is attained and bounds every walk, `none` (infinity) means no
walk exists. -/
def ShortestOpt (g : Graph) (s t : ℕ) : Option ℚ → Prop
  | some q => (∃ V, WalkI g s t q V) ∧ ∀ c V, WalkI g s t c V → q ≤ c
  | none => ∀ c V, ¬ WalkI g s t c V

theorem nonnegW_of_weightsOk {g : Graph} (h : WeightsOk g) :
    ∀ u v, hasEdge g u v → 0 ≤ wOf g u v :=
  fun u v he => (h u he.1 v he.2).2

theorem walk_V_mem {g : Graph} {s t : ℕ} {c : ℚ} {V : Finset ℕ}
    (w : WalkI g s t c V) : ∀ x ∈ V, x ∈ g.nodes := by
  induction w with
  | refl h => intro x hx; exact absurd hx (Finset.not_mem_empty x)
  | tail w' he ih =>
    intro x hx
    rcases Finset.mem_insert.mp hx with h | h
    · exact h ▸ he.1
    · exact ih x h

theorem walk_empty_V {g : Graph} {s t : ℕ} {c : ℚ} {V : Finset ℕ}
    (w : WalkI g s t c V) (hV : V = ∅) : t = s ∧ c = 0 := by
  cases w with
  | refl h => exact ⟨rfl, rfl⟩
  | tail w' he => exact absurd hV (Finset.insert_ne_empty _ _)

/-- Entry decomposition: any walk either avoids `K` entirely with its
non-final vertices, or it has a prefix ending at some `y ∈ K` whose non-final
vertices avoid `K` and whose weight is at most the full weight (weights being
non-negative). -/
theorem walk_entry {g : Graph} {s : ℕ} (hnn : ∀ u v, hasEdge g u v → 0 ≤ wOf g u v)
    (K : Finset ℕ) :
    ∀ {t : ℕ} {c : ℚ} {V : Finset ℕ}, WalkI g s t c V →
      (∀ x ∈ V, x ∉ K) ∨
        ∃ y c₁ V₁, y ∈ K ∧ WalkI g s y c₁ V₁ ∧ (∀ x ∈ V₁, x ∉ K) ∧ c₁ ≤ c := by
  intro t c V w
  induction w with
  | refl h => exact Or.inl (fun x hx => absurd hx (Finset.not_mem_empty x))
  | @tail u v c' V' w' he ih =>
    rcases ih with hV' | ⟨y, c₁, V₁, hy, w₁, hV₁, hc₁⟩
    · by_cases hu : u ∈ K
      · exact Or.inr ⟨u, c', V', hu, w', hV', le_add_of_nonneg_right (hnn u v he)⟩
      · refine Or.inl (fun x hx => ?_)
        rcases Finset.mem_insert.mp hx with h | h
        · exact h ▸ hu
        · exact hV' x h
    · exact Or.inr ⟨y, c₁, V₁, hy, w₁, hV₁, hc₁.trans (le_add_of_nonneg_right (hnn u v he))⟩

/-- Invariant-based correctness of the Dijkstra pop/relax loop.  State:
worklist keys `K` with priorities `d`, ghost map `sd` of the distances already
reported for settled (popped) nodes, and a lower bound `lb` on the priorities
in `K`.  Under the invariants, the produced pop sequence is sorted by
distance, bounded below by `lb`, and every reported distance is the shortest
walk weight from `s`. -/
theorem dijkstraGo_spec (g : Graph) (s : ℕ) (hwk : WeightsOk g) :
    ∀ (fuel : ℕ) (K : Finset ℕ) (d sd : ℕ → Option ℚ) (lb : Option ℚ),
    K.card ≤ fuel → K ⊆ g.nodes →
    (∀ v ∈ K, dLeB lb (d v) = true) →
    (∀ v ∈ K, ∀ q, d v = some q → ∃ V, WalkI g s v q V ∧ ∀ x ∈ V, x ∉ K) →
    (∀ v ∈ K, ∀ c V, WalkI g s v c V → (∀ x ∈ V, x ∉ K) → dLeB (d v) (some c) = true) →
    (∀ y ∈ g.nodes, y ∉ K → ShortestOpt g s y (sd y)) →
    (∀ y ∈ g.nodes, y ∉ K → ∀ q, sd y = some q → ∃ V, WalkI g s y q V ∧ ∀ x ∈ V, x ∉ K) →
    List.Pairwise (fun p1 p2 => dLeB p1.2 p2.2 = true) (dijkstraGo g fuel K d) ∧
    (∀ p ∈ dijkstraGo g fuel K d, dLeB lb p.2 = true) ∧
    (∀ p ∈ dijkstraGo g fuel K d, ShortestOpt g s p.1 p.2) := by
  intro fuel
  induction fuel with
  | zero =>
    intro K d sd lb _ _ _ _ _ _ _
    simp [dijkstraGo]
  | succ fuel ih =>
    intro K d sd lb hfuel hKN hlb hSnd hDom hSet hAch
    by_cases hK : K.card = 0
    · simp [dijkstraGo, hK]
    · obtain ⟨x₀, hx₀⟩ : K.Nonempty := Finset.card_pos.mp (Nat.pos_of_ne_zero hK)
      have sortNE : sortFin K ≠ [] := List.ne_nil_of_mem (mem_sortFin.mpr hx₀)
      have hgo : dijkstraGo g (fuel+1) K d =
          (pickMinD d (sortFin K), d (pickMinD d (sortFin K))) ::
            dijkstraGo g fuel (K.erase (pickMinD d (sortFin K)))
              (relaxAll g (K.erase (pickMinD d (sortFin K))) (d (pickMinD d (sortFin K)))
                (pickMinD d (sortFin K)) d) := by
        simp only [dijkstraGo]
        rw [if_neg hK]
      set u := pickMinD d (sortFin K) with hu_def
      have hu : u ∈ K := mem_sortFin.mp (pickMinD_mem d _ sortNE)
      have hmin : ∀ x ∈ K, dLeB (d u) (d x) = true :=
        fun x hx => pickMinD_min d _ x (mem_sortFin.mpr hx)
      have huN : u ∈ g.nodes := hKN hu
      have hnn := nonnegW_of_weightsOk hwk
      -- the popped node's priority is its true shortest distance
      have hopt : ShortestOpt g s u (d u) := by
        cases hdu : d u with
        | some q =>
          simp only [ShortestOpt]
          constructor
          · obtain ⟨V, w, _⟩ := hSnd u hu q hdu
            exact ⟨V, w⟩
          · intro c V wlk
            rcases walk_entry hnn K wlk with hV | ⟨y, c₁, V₁, hy, w₁, hV₁, hc₁⟩
            · have h1 := hDom u hu c V wlk hV
              rw [hdu] at h1
              exact dLeB_some_some.mp h1
            · have h3 := dLeB_trans (hmin y hy) (hDom y hy c₁ V₁ w₁ hV₁)
              rw [hdu] at h3
              exact (dLeB_some_some.mp h3).trans hc₁
        | none =>
          simp only [ShortestOpt]
          intro c V wlk
          rcases walk_entry hnn K wlk with hV | ⟨y, c₁, V₁, hy, w₁, hV₁, hc₁⟩
          · have h1 := hDom u hu c V wlk hV
            rw [hdu] at h1
            simp [dLeB] at h1
          · have h3 := dLeB_trans (hmin y hy) (hDom y hy c₁ V₁ w₁ hV₁)
            rw [hdu] at h3
            simp [dLeB] at h3
      have hfuel' : (K.erase u).card ≤ fuel := by
        have := Finset.card_erase_of_mem hu
        omega
      have hKN' : K.erase u ⊆ g.nodes := fun x hx => hKN (Finset.mem_of_mem_erase hx)
      have hlb' : ∀ v ∈ K.erase u, dLeB (d u) (relaxAll g (K.erase u) (d u) u d v) = true := by
        intro v hv
        rcases relaxAll_cases g (K.erase u) (d u) u d v with hcase | ⟨hva, _, hcase⟩
        · rw [hcase]
          exact hmin v (Finset.mem_of_mem_erase hv)
        · rw [hcase]
          exact dLeB_dAdd _ (hnn u v ⟨huN, hva⟩)
      have hSnd' : ∀ v ∈ K.erase u, ∀ q', relaxAll g (K.erase u) (d u) u d v = some q' →
          ∃ V, WalkI g s v q' V ∧ ∀ x ∈ V, x ∉ K.erase u := by
        intro v hv q' heq
        rcases relaxAll_cases g (K.erase u) (d u) u d v with hcase | ⟨hva, _, hcase⟩
        · rw [hcase] at heq
          obtain ⟨V, w, hV⟩ := hSnd v (Finset.mem_of_mem_erase hv) q' heq
          exact ⟨V, w, fun x hx hxm => hV x hx (Finset.mem_of_mem_erase hxm)⟩
        · rw [hcase] at heq
          obtain ⟨qu, hdu, hq'⟩ := dAdd_eq_some heq
          obtain ⟨V₁, w₁, hV₁⟩ := hSnd u hu qu hdu
          refine ⟨insert u V₁, ?_, ?_⟩
          · rw [hq']
            exact WalkI.tail w₁ ⟨huN, hva⟩
          · intro x hx
            rcases Finset.mem_insert.mp hx with h | h
            · subst h; exact Finset.not_mem_erase u K
            · intro hxm; exact hV₁ x h (Finset.mem_of_mem_erase hxm)
      have hDom' : ∀ v ∈ K.erase u, ∀ c V, WalkI g s v c V →
          (∀ x ∈ V, x ∉ K.erase u) →
          dLeB (relaxAll g (K.erase u) (d u) u d v) (some c) = true := by
        intro v hv c V wlk hav
        have hvK : v ∈ K := Finset.mem_of_mem_erase hv
        by_cases hVK : ∀ x ∈ V, x ∉ K
        · exact dLeB_trans (relaxAll_le g (K.erase u) (d u) u d v) (hDom v hvK c V wlk hVK)
        · push_neg at hVK
          obtain ⟨x, hxV, hxK⟩ := hVK
          have hxu : x = u := by
            by_contra hne
            exact (hav x hxV) (Finset.mem_erase.mpr ⟨hne, hxK⟩)
          rw [hxu] at hxV
          cases wlk with
          | refl h => exact absurd hxV (Finset.not_mem_empty u)
          | @tail y vtgt c₀ V₀ w₀ he =>
            by_cases hyu : y = u
            · subst hyu
              cases hdu : d u with
              | none =>
                rw [hdu] at hopt
                simp only [ShortestOpt] at hopt
                exact absurd w₀ (hopt c₀ V₀)
              | some qu =>
                rw [hdu] at hopt
                simp only [ShortestOpt] at hopt
                have hqle : qu ≤ c₀ := hopt.2 c₀ V₀ w₀
                have hcand := relaxAll_le_cand g (K.erase u) (d u) u d hv he.2
                rw [hdu, dAdd_some] at hcand
                exact dLeB_trans hcand (dLeB_some_some.mpr (add_le_add_right hqle _))
            · have hyV : y ∈ insert y V₀ := Finset.mem_insert_self y V₀
              have hyK : y ∉ K := fun hyKm => (hav y hyV) (Finset.mem_erase.mpr ⟨hyu, hyKm⟩)
              have hyN : y ∈ g.nodes := he.1
              have hsy := hSet y hyN hyK
              cases hsdy : sd y with
              | none =>
                rw [hsdy] at hsy
                simp only [ShortestOpt] at hsy
                exact absurd w₀ (hsy c₀ V₀)
              | some qy =>
                rw [hsdy] at hsy
                simp only [ShortestOpt] at hsy
                have hqy : qy ≤ c₀ := hsy.2 c₀ V₀ w₀
                obtain ⟨W, wξ, hW⟩ := hAch y hyN hyK qy hsdy
                have wext : WalkI g s v (qy + wOf g y v) (insert y W) := WalkI.tail wξ he
                have havoid : ∀ z ∈ insert y W, z ∉ K := by
                  intro z hz
                  rcases Finset.mem_insert.mp hz with h | h
                  · exact h ▸ hyK
                  · exact hW z h
                have hdv := hDom v hvK _ _ wext havoid
                refine dLeB_trans
                  (dLeB_trans (relaxAll_le g (K.erase u) (d u) u d v) hdv) ?_
                exact dLeB_some_some.mpr (add_le_add_right hqy _)
      have hSet' : ∀ y ∈ g.nodes, y ∉ K.erase u →
          ShortestOpt g s y (Function.update sd u (d u) y) := by
        intro y hyN hyK'
        by_cases hy : y = u
        · subst hy
          rw [Function.update_same]
          exact hopt
        · rw [Function.update_noteq hy]
          exact hSet y hyN (fun hm => hyK' (Finset.mem_erase.mpr ⟨hy, hm⟩))
      have hAch' : ∀ y ∈ g.nodes, y ∉ K.erase u → ∀ q,
          Function.update sd u (d u) y = some q →
          ∃ V, WalkI g s y q V ∧ ∀ x ∈ V, x ∉ K.erase u := by
        intro y hyN hyK' q heq
        by_cases hy : y = u
        · subst hy
          rw [Function.update_same] at heq
          obtain ⟨V, w, hV⟩ := hSnd u hu q heq
          exact ⟨V, w, fun x hx hxm => hV x hx (Finset.mem_of_mem_erase hxm)⟩
        · rw [Function.update_noteq hy] at heq
          obtain ⟨V, w, hV⟩ := hAch y hyN (fun hm => hyK' (Finset.mem_erase.mpr ⟨hy, hm⟩)) q heq
          exact ⟨V, w, fun x hx hxm => hV x hx (Finset.mem_of_mem_erase hxm)⟩
      obtain ⟨ihP, ihB, ihO⟩ := ih (K.erase u) (relaxAll g (K.erase u) (d u) u d)
        (Function.update sd u (d u)) (d u) hfuel' hKN' hlb' hSnd' hDom' hSet' hAch'
      rw [hgo]
      refine ⟨List.pairwise_cons.mpr ⟨fun p hp => ihB p hp, ihP⟩, ?_, ?_⟩
      · intro p hp
        rcases List.mem_cons.mp hp with h | h
        · subst h; exact hlb u hu
        · exact dLeB_trans (hlb u hu) (ihB p h)
      · intro p hp
        rcases List.mem_cons.mp hp with h | h
        · subst h; exact hopt
        · exact ihO p h

theorem mem_takeWhile_mem {α : Type} (f : α → Bool) :
    ∀ (l : List α) (x : α), x ∈ l.takeWhile f → x ∈ l := by
  intro l
  induction l with
  | nil => intro x hx; simp at hx
  | cons a t ih =>
    intro x hx
    rw [List.takeWhile_cons] at hx
    by_cases hfa : f a = true
    · rw [if_pos hfa] at hx
      rcases List.mem_cons.mp hx with h | h
      · exact h ▸ List.mem_cons_self a t
      · exact List.mem_cons_of_mem a (ih x h)
    · rw [if_neg hfa] at hx
      exact absurd hx (List.not_mem_nil x)

theorem pairwise_takeWhile {α : Type} (R : α → α → Prop) (f : α → Bool) :
    ∀ l : List α, l.Pairwise R → (l.takeWhile f).Pairwise R := by
  intro l
  induction l with
  | nil => intro _; simp
  | cons a t ih =>
    intro h
    obtain ⟨ha, ht⟩ := List.pairwise_cons.mp h
    rw [List.takeWhile_cons]
    by_cases hfa : f a = true
    · rw [if_pos hfa]
      exact List.pairwise_cons.mpr ⟨fun b hb => ha b (mem_takeWhile_mem f t b hb), ih ht⟩
    · rw [if_neg hfa]
      simp

/-- C5: for a graph whose edges all carry (present) non-negative weights and a
defined start node, every run of the Dijkstra iterator yields `(node,
distance)` pairs in non-decreasing distance order, and each yielded distance is
the true shortest-path length from the start to that node (`none` = `inf` for
nodes with no walk from the start). -/
theorem dijkstra_yields_sorted_shortest (g : Graph) (s : ℕ) (ys : List (ℕ × Option ℚ))
    (hwk : WeightsOk g) (hs : s ∈ g.nodes)
    (hys : DijkstraIterator g s = .ok ys) :
    List.Pairwise (fun p1 p2 => dLeB p1.2 p2.2 = true) ys ∧
    ∀ p ∈ ys, ShortestOpt g s p.1 p.2 := by
  unfold DijkstraIterator dijkstraVisits at hys
  rw [if_neg (not_not_intro hs)] at hys
  simp only [Except.map] at hys
  have hys' := Except.ok.inj hys
  have hlb0 : ∀ v ∈ g.nodes,
      dLeB (some 0) ((fun u => if u = s then some 0 else none) v) = true := by
    intro v _
    by_cases h : v = s
    · simp [h, dLeB]
    · simp [h, dLeB]
  have hSnd0 : ∀ v ∈ g.nodes, ∀ q, (fun u => if u = s then some 0 else none) v = some q →
      ∃ V, WalkI g s v q V ∧ ∀ x ∈ V, x ∉ g.nodes := by
    intro v _ q heq
    change (if v = s then some (0:ℚ) else none) = some q at heq
    by_cases h : v = s
    · subst h
      rw [if_pos rfl] at heq
      injection heq with h0
      refine ⟨∅, ?_, fun x hx => absurd hx (Finset.not_mem_empty x)⟩
      rw [← h0]
      exact WalkI.refl hs
    · rw [if_neg h] at heq
      exact absurd heq (by simp)
  have hDom0 : ∀ v ∈ g.nodes, ∀ c V, WalkI g s v c V → (∀ x ∈ V, x ∉ g.nodes) →
      dLeB ((fun u => if u = s then some 0 else none) v) (some c) = true := by
    intro v _ c V wlk hav
    have hVe : V = ∅ :=
      Finset.eq_empty_iff_forall_not_mem.mpr (fun x hx => hav x hx (walk_V_mem wlk x hx))
    obtain ⟨hts, hc0⟩ := walk_empty_V wlk hVe
    subst hts
    rw [hc0]
    simp [dLeB]
  obtain ⟨hP, _, hO⟩ := dijkstraGo_spec g s hwk g.nodes.card g.nodes
    (fun u => if u = s then some 0 else none) (fun _ => none) (some 0)
    (le_refl _) (subset_refl _) hlb0 hSnd0 hDom0
    (fun y hy hny => absurd hy hny) (fun y hy hny => absurd hy hny)
  subst hys'
  constructor
  · exact pairwise_takeWhile _ _ _ hP
  · intro p hp
    exact hO p (mem_takeWhile_mem _ _ p hp)

/-- Witness for C5: applying the theorem to the weighted test graph and the
concretely computed yield sequence `[(1,0), (3,3), (5,5), (2,7), (4,9)]`. -/
theorem dijkstra_yields_sorted_shortest_witness :
    (WeightsOk gDij ∧ 1 ∈ gDij.nodes ∧ DijkstraIterator gDij 1 =
      .ok [(1, some 0), (3, some 3), (5, some 5), (2, some 7), (4, some 9)]) ∧
    (List.Pairwise (fun p1 p2 => dLeB p1.2 p2.2 = true)
        [(1, some 0), (3, some 3), (5, some 5), (2, some 7), (4, some 9)] ∧
      ∀ p ∈ [((1 : ℕ), some (0 : ℚ)), (3, some 3), (5, some 5), (2, some 7), (4, some 9)],
        ShortestOpt gDij 1 p.1 p.2) :=
  ⟨⟨by decide, by decide, by decide⟩,
    dijkstra_yields_sorted_shortest gDij 1
      [(1, some 0), (3, some 3), (5, some 5), (2, some 7), (4, some 9)]
      (by decide) (by decide) (by decide)⟩

/-! `algorithms.topological_sort` (Kahn's algorithm).  `in_degrees` is the
dict `{v: len(graph.parents(v))}` (modelled as a total `ℤ`-valued map, Python
ints), `ready` the list of zero-in-degree nodes, and `pop_min` removes the
first occurrence of the minimal value of `ready`. -/

/-- In-adjacency stays inside the node set. -/
def ParentsClosed (g : Graph) : Prop := ∀ v ∈ g.nodes, aInD g v ⊆ g.nodes

instance (g : Graph) : Decidable (ParentsClosed g) := by
  unfold ParentsClosed; infer_instance

/-- The documented adjacency symmetry (class invariant 1) on defined nodes. -/
def SymAdj (g : Graph) : Prop :=
  ∀ u ∈ g.nodes, ∀ v ∈ g.nodes, (v ∈ aOutD g u ↔ u ∈ aInD g v)

instance (g : Graph) : Decidable (SymAdj g) := by
  unfold SymAdj; infer_instance

/-- A directed acyclic graph: no edge `(u, v)` such that `u` is reachable
from `v`. -/
def Acyclic (g : Graph) : Prop := ∀ u v, ¬ (hasEdge g u v ∧ ReachI g v u)

/-- `pop_min`: the minimum of `ready` (by value, first occurrence on ties,
matching `min((ready[i], i) ...)` followed by `pop(idx)`). -/
def popMinL (l : List ℕ) : Option (ℕ × List ℕ) :=
  match l with
  | [] => none
  | x :: xs => some (xs.foldl Nat.min x, (x :: xs).erase (xs.foldl Nat.min x))

theorem foldl_min_mem : ∀ (xs : List ℕ) (x : ℕ), xs.foldl Nat.min x ∈ x :: xs := by
  intro xs
  induction xs with
  | nil => intro x; exact List.mem_cons_self x []
  | cons y ys ih =>
    intro x
    simp only [List.foldl_cons]
    rcases List.mem_cons.mp (ih (Nat.min x y)) with h1 | h1
    · rw [h1]
      by_cases hxy : x ≤ y
      · have hm : x.min y = x := Nat.min_eq_left hxy
        rw [hm]; exact List.mem_cons_self x _
      · have hm : x.min y = y := Nat.min_eq_right (Nat.le_of_not_le hxy)
        rw [hm]; exact List.mem_cons_of_mem x (List.mem_cons_self y ys)
    · exact List.mem_cons_of_mem x (List.mem_cons_of_mem y h1)

theorem popMinL_eq {l : List ℕ} {u : ℕ} {r : List ℕ} (h : popMinL l = some (u, r)) :
    u ∈ l ∧ r = l.erase u := by
  cases l with
  | nil => exact absurd h (by simp [popMinL])
  | cons x xs =>
    simp only [popMinL, Option.some.injEq, Prod.mk.injEq] at h
    obtain ⟨h1, h2⟩ := h
    exact ⟨h1 ▸ foldl_min_mem xs x, by rw [← h1, ← h2]⟩

theorem popMinL_none {l : List ℕ} (h : popMinL l = none) : l = [] := by
  cases l with
  | nil => rfl
  | cons x xs => exact absurd h (by simp [popMinL])

/-- One turn of the neighbor loop of `topological_sort`: decrement the
in-degree of `v` and append `v` to `ready` when it reaches zero. -/
def degStep (pr : (ℕ → ℤ) × List ℕ) (v : ℕ) : (ℕ → ℤ) × List ℕ :=
  let d2 := Function.update pr.1 v (pr.1 v - 1)
  if d2 v = 0 then (d2, pr.2 ++ [v]) else (d2, pr.2)

theorem degStep_fst_other {pr : (ℕ → ℤ) × List ℕ} {v x : ℕ} (h : x ≠ v) :
    (degStep pr v).1 x = pr.1 x := by
  unfold degStep
  by_cases hc : Function.update pr.1 v (pr.1 v - 1) v = 0
  · rw [if_pos hc]
    exact Function.update_noteq h _ _
  · rw [if_neg hc]
    exact Function.update_noteq h _ _

theorem degStep_fst_self {pr : (ℕ → ℤ) × List ℕ} {v : ℕ} :
    (degStep pr v).1 v = pr.1 v - 1 := by
  unfold degStep
  by_cases hc : Function.update pr.1 v (pr.1 v - 1) v = 0
  · rw [if_pos hc]
    exact Function.update_same _ _ _
  · rw [if_neg hc]
    exact Function.update_same _ _ _

theorem degStep_snd {pr : (ℕ → ℤ) × List ℕ} {v : ℕ} :
    (degStep pr v).2 = pr.2 ++ (if pr.1 v - 1 = 0 then [v] else []) := by
  unfold degStep
  by_cases hc : Function.update pr.1 v (pr.1 v - 1) v = 0
  · rw [if_pos hc]
    rw [Function.update_same] at hc
    rw [if_pos hc]
  · rw [if_neg hc]
    rw [Function.update_same] at hc
    rw [if_neg hc, List.append_nil]

theorem degFold_fst_not_mem :
    ∀ (l : List ℕ) (pr : (ℕ → ℤ) × List ℕ) (x : ℕ), x ∉ l →
      (l.foldl degStep pr).1 x = pr.1 x := by
  intro l
  induction l with
  | nil => intro pr x _; rfl
  | cons a t ih =>
    intro pr x hx
    have hxa : x ≠ a := fun he => hx (he ▸ List.mem_cons_self a t)
    simp only [List.foldl_cons]
    rw [ih _ x (fun hm => hx (List.mem_cons_of_mem a hm))]
    exact degStep_fst_other hxa

theorem degFold_fst :
    ∀ (l : List ℕ) (pr : (ℕ → ℤ) × List ℕ) (x : ℕ), l.Nodup →
      (l.foldl degStep pr).1 x = if x ∈ l then pr.1 x - 1 else pr.1 x := by
  intro l
  induction l with
  | nil => intro pr x _; simp
  | cons a t ih =>
    intro pr x hnd
    obtain ⟨hat, htd⟩ := List.nodup_cons.mp hnd
    simp only [List.foldl_cons]
    by_cases hxa : x = a
    · subst hxa
      rw [degFold_fst_not_mem t _ x hat, degStep_fst_self,
        if_pos (List.mem_cons_self x t)]
    · rw [ih _ x htd, degStep_fst_other hxa]
      by_cases hxt : x ∈ t
      · rw [if_pos hxt, if_pos (List.mem_cons_of_mem a hxt)]
      · rw [if_neg hxt, if_neg (by simp [hxa, hxt])]

theorem degFold_snd :
    ∀ (l : List ℕ) (pr : (ℕ → ℤ) × List ℕ), l.Nodup →
      (l.foldl degStep pr).2 = pr.2 ++ l.filter (fun v => pr.1 v - 1 == 0) := by
  intro l
  induction l with
  | nil => intro pr _; simp
  | cons a t ih =>
    intro pr hnd
    obtain ⟨hat, htd⟩ := List.nodup_cons.mp hnd
    simp only [List.foldl_cons]
    rw [ih _ htd, degStep_snd]
    have hfc : t.filter (fun v => (degStep pr a).1 v - 1 == 0) =
        t.filter (fun v => pr.1 v - 1 == 0) := by
      apply List.filter_congr
      intro x hx
      have hxa : x ≠ a := fun he => hat (by rw [← he]; exact hx)
      rw [degStep_fst_other hxa]
    rw [hfc, List.append_assoc]
    congr 1
    rw [List.filter_cons]
    by_cases hc : pr.1 a - 1 = 0
    · rw [if_pos hc, if_pos (show (pr.1 a - 1 == 0) = true by simp [hc])]
      rfl
    · rw [if_neg hc, if_neg (show ¬((pr.1 a - 1 == 0) = true) by simp [hc])]
      rfl

/-- The while loop of `topological_sort`: pop the minimal ready node, append
it to the order, decrement its neighbors' in-degrees, collecting new zeros
into `ready`.  One fuel unit is spent per pop; each pop appends one (new) node
to `order`, so `|nodes|` units run the loop to completion. -/
def topoGo (g : Graph) : ℕ → (ℕ → ℤ) → List ℕ → List ℕ → List ℕ
  | 0, _, _, order => order
  | fuel+1, indeg, ready, order =>
    match popMinL ready with
    | none => order
    | some (u, ready') =>
      let p := (sortFin (aOutD g u)).foldl degStep (indeg, ready')
      topoGo g fuel p.1 p.2 (order ++ [u])

/-- `algorithms.topological_sort(graph)` with no key function: in-degrees are
the parent counts, `ready` starts as the zero-in-degree nodes. -/
def topological_sort (g : Graph) : List ℕ :=
  topoGo g g.nodes.card (fun v => ((aInD g v).card : ℤ))
    ((sortFin g.nodes).filter (fun v => (aInD g v).card == 0)) []

/-- The DAG `g2` of the algorithms test suite (a=1, b=2, c=3, d=4; edges a→b,
a→d, b→d, c→d). -/
def gTopo : Graph :=
  ((((((Graph.empty 1).add_nodes [1, 2, 3, 4]).1.add_edge 1 2 none).1.add_edge
    1 4 none).1.add_edge 2 4 none).1.add_edge 3 4 none).1

example : topological_sort gTopo = [1, 2, 3, 4] := by decide
example : topological_sort (Graph.empty 1) = [] := by decide

/-- Index of the first occurrence of `x` in `l` (`list.index`). -/
def idx (l : List ℕ) (x : ℕ) : ℕ :=
  match l with
  | [] => 0
  | h :: t => if h = x then 0 else idx t x + 1

theorem idx_append_left {x : ℕ} : ∀ {l : List ℕ} (l2 : List ℕ), x ∈ l →
    idx (l ++ l2) x = idx l x := by
  intro l
  induction l with
  | nil => intro l2 h; exact absurd h (List.not_mem_nil x)
  | cons h t ih =>
    intro l2 hx
    simp only [List.cons_append, idx]
    by_cases hh : h = x
    · rw [if_pos hh, if_pos hh]
    · rw [if_neg hh, if_neg hh]
      have hxt : x ∈ t := by
        rcases List.mem_cons.mp hx with h1 | h1
        · exact absurd h1.symm hh
        · exact h1
      show idx (t ++ l2) x + 1 = idx t x + 1
      rw [ih l2 hxt]

theorem idx_append_self {x : ℕ} : ∀ {l : List ℕ}, x ∉ l →
    idx (l ++ [x]) x = l.length := by
  intro l
  induction l with
  | nil => intro _; simp [idx]
  | cons h t ih =>
    intro hx
    have hh : h ≠ x := fun he => hx (he ▸ List.mem_cons_self h t)
    simp only [List.cons_append, idx, List.length_cons]
    rw [if_neg hh]
    show idx (t ++ [x]) x + 1 = t.length + 1
    rw [ih (fun hm => hx (List.mem_cons_of_mem h hm))]

theorem idx_lt_length {x : ℕ} : ∀ {l : List ℕ}, x ∈ l → idx l x < l.length := by
  intro l
  induction l with
  | nil => intro h; exact absurd h (List.not_mem_nil x)
  | cons h t ih =>
    intro hx
    simp only [idx, List.length_cons]
    by_cases hh : h = x
    · rw [if_pos hh]; omega
    · rw [if_neg hh]
      have hxt : x ∈ t := by
        rcases List.mem_cons.mp hx with h1 | h1
        · exact absurd h1.symm hh
        · exact h1
      have := ih hxt
      omega

theorem reach_head {g : Graph} {x y z : ℕ} (hxy : hasEdge g x y) (hyz : ReachI g y z) :
    ReachI g x z := by
  induction hyz with
  | refl h => exact ReachI.tail (ReachI.refl hxy.1) hxy
  | tail hr he ih => exact ReachI.tail ih he

/-- If every node of a nonempty set `S` has a parent inside `S`, the graph has
a directed cycle (an edge whose source is reachable from its target):
following parents from any node must repeat by pigeonhole. -/
theorem cycle_of_parents_in (g : Graph) (S : Finset ℕ) (hne : S.Nonempty)
    (hSN : ∀ x ∈ S, x ∈ g.nodes)
    (hpar : ∀ x ∈ S, ∃ p ∈ S, hasEdge g p x) :
    ∃ a b, hasEdge g a b ∧ ReachI g b a := by
  classical
  obtain ⟨x₀, hx₀⟩ := hne
  have hch : ∀ x : ℕ, ∃ p : ℕ, x ∈ S → p ∈ S ∧ hasEdge g p x := by
    intro x
    by_cases hx : x ∈ S
    · obtain ⟨p, hp, he⟩ := hpar x hx
      exact ⟨p, fun _ => ⟨hp, he⟩⟩
    · exact ⟨0, fun h => absurd h hx⟩
  choose f hf using hch
  have hseqS : ∀ n, f^[n] x₀ ∈ S := by
    intro n
    induction n with
    | zero => exact hx₀
    | succ n ihn =>
      rw [Function.iterate_succ_apply' f n x₀]
      exact (hf (f^[n] x₀) ihn).1
  have hedge : ∀ n, hasEdge g (f^[n+1] x₀) (f^[n] x₀) := by
    intro n
    rw [Function.iterate_succ_apply' f n x₀]
    exact (hf (f^[n] x₀) (hseqS n)).2
  have hreach : ∀ b n, ReachI g (f^[b+n] x₀) (f^[b] x₀) := by
    intro b n
    induction n with
    | zero => exact ReachI.refl (hSN _ (hseqS b))
    | succ n ihn => exact reach_head (hedge (b+n)) ihn
  have hc1 : S.card < (Finset.range (S.card + 1)).card := by
    rw [Finset.card_range]; omega
  have hmaps : ∀ n ∈ Finset.range (S.card + 1), f^[n] x₀ ∈ S := fun n _ => hseqS n
  obtain ⟨i, _, j, _, hij, heqs⟩ :=
    Finset.exists_ne_map_eq_of_card_lt_of_maps_to hc1 hmaps
  rcases Nat.lt_or_ge i j with hlt | hge
  · obtain ⟨k, hk⟩ : ∃ k, j = (i + 1) + k := ⟨j - (i+1), by omega⟩
    refine ⟨f^[i+1] x₀, f^[i] x₀, hedge i, ?_⟩
    rw [heqs, hk]
    exact hreach (i+1) k
  · have hlt : j < i := by omega
    obtain ⟨k, hk⟩ : ∃ k, i = (j + 1) + k := ⟨i - (j+1), by omega⟩
    refine ⟨f^[j+1] x₀, f^[j] x₀, hedge j, ?_⟩
    rw [← heqs, hk]
    exact hreach (j+1) k

theorem toFinset_append_singleton (l : List ℕ) (u : ℕ) :
    (l ++ [u]).toFinset = insert u l.toFinset := by
  ext x
  simp [or_comm]

/-- Conclusion bundle for the terminal states of the Kahn loop: if the order
covers all nodes, it is a complete valid topological order. -/
theorem topo_terminal (g : Graph) (hec : EdgesClosed g) (order : List ℕ)
    (hond : order.Nodup) (hordN : ∀ x ∈ order, x ∈ g.nodes)
    (hcomplete : g.nodes ⊆ order.toFinset)
    (hA6 : ∀ a b, hasEdge g a b → b ∈ order → a ∈ order ∧ idx order a < idx order b) :
    order.Nodup ∧ (∀ x, x ∈ order ↔ x ∈ g.nodes) ∧
    (∀ a b, hasEdge g a b → idx order a < idx order b) := by
  refine ⟨hond, ?_, ?_⟩
  · intro x
    constructor
    · exact hordN x
    · intro hx
      exact List.mem_toFinset.mp (hcomplete hx)
  · intro a b he
    have hbN : b ∈ g.nodes := hec a he.1 he.2
    have hbO : b ∈ order := List.mem_toFinset.mp (hcomplete hbN)
    exact (hA6 a b he hbO).2

/-- Invariant-based correctness of the Kahn loop on acyclic graphs: with
`ready` holding exactly the unordered nodes whose parents are all ordered and
`indeg` counting unordered parents, the loop emits a duplicate-free order
containing every node in which every edge goes forward. -/
theorem topoGo_spec (g : Graph) (hec : EdgesClosed g) (hpc : ParentsClosed g)
    (hsym : SymAdj g) (hacy : Acyclic g) :
    ∀ (fuel : ℕ) (indeg : ℕ → ℤ) (ready order : List ℕ),
    g.nodes.card ≤ fuel + order.length →
    order.Nodup → (∀ x ∈ order, x ∈ g.nodes) →
    ready.Nodup →
    (∀ x, x ∈ ready ↔ x ∈ g.nodes ∧ x ∉ order ∧ aInD g x ⊆ order.toFinset) →
    (∀ v ∈ g.nodes, v ∉ order → indeg v = (((aInD g v) \ order.toFinset).card : ℤ)) →
    (∀ v ∈ order, aInD g v ⊆ order.toFinset) →
    (∀ a b, hasEdge g a b → b ∈ order → a ∈ order ∧ idx order a < idx order b) →
    (topoGo g fuel indeg ready order).Nodup ∧
    (∀ x, x ∈ topoGo g fuel indeg ready order ↔ x ∈ g.nodes) ∧
    (∀ a b, hasEdge g a b →
      idx (topoGo g fuel indeg ready order) a < idx (topoGo g fuel indeg ready order) b) := by
  intro fuel
  induction fuel with
  | zero =>
    intro indeg ready order hfuel hond hordN hrnd hready hdeg hA5 hA6
    have hout : topoGo g 0 indeg ready order = order := rfl
    rw [hout]
    have hlen : order.toFinset.card = order.length := List.toFinset_card_of_nodup hond
    have hsub : order.toFinset ⊆ g.nodes := fun x hx => hordN x (List.mem_toFinset.mp hx)
    have heqf : order.toFinset = g.nodes :=
      Finset.eq_of_subset_of_card_le hsub (by omega)
    exact topo_terminal g hec order hond hordN (by rw [heqf]) hA6
  | succ fuel ih =>
    intro indeg ready order hfuel hond hordN hrnd hready hdeg hA5 hA6
    cases hpop : popMinL ready with
    | none =>
      have hrnil : ready = [] := popMinL_none hpop
      have hout : topoGo g (fuel+1) indeg ready order = order := by
        simp only [topoGo]
        rw [hpop]
      rw [hout]
      have hcomp : g.nodes ⊆ order.toFinset := by
        by_contra hnc
        obtain ⟨z, hzN, hzO⟩ := Finset.not_subset.mp hnc
        have hSne : (g.nodes \ order.toFinset).Nonempty :=
          ⟨z, Finset.mem_sdiff.mpr ⟨hzN, hzO⟩⟩
        have hSN : ∀ x ∈ g.nodes \ order.toFinset, x ∈ g.nodes :=
          fun x hx => (Finset.mem_sdiff.mp hx).1
        have hpar : ∀ x ∈ g.nodes \ order.toFinset,
            ∃ p ∈ g.nodes \ order.toFinset, hasEdge g p x := by
          intro x hx
          obtain ⟨hxN, hxF⟩ := Finset.mem_sdiff.mp hx
          have hxO : x ∉ order := fun hm => hxF (List.mem_toFinset.mpr hm)
          have hxr : x ∉ ready := by rw [hrnil]; exact List.not_mem_nil x
          have hnotsub : ¬ (aInD g x ⊆ order.toFinset) := by
            intro hsub
            exact hxr ((hready x).mpr ⟨hxN, hxO, hsub⟩)
          obtain ⟨p, hpP, hpF⟩ := Finset.not_subset.mp hnotsub
          have hpN : p ∈ g.nodes := hpc x hxN hpP
          exact ⟨p, Finset.mem_sdiff.mpr ⟨hpN, hpF⟩, hpN, (hsym p hpN x hxN).mpr hpP⟩
        obtain ⟨a, b, he, hr⟩ := cycle_of_parents_in g _ hSne hSN hpar
        exact hacy a b ⟨he, hr⟩
      exact topo_terminal g hec order hond hordN hcomp hA6
    | some ur =>
      obtain ⟨u, ready'⟩ := ur
      obtain ⟨hur, hre⟩ := popMinL_eq hpop
      obtain ⟨huN, huO, huP⟩ := (hready u).mp hur
      have hout : topoGo g (fuel+1) indeg ready order =
          topoGo g fuel ((sortFin (aOutD g u)).foldl degStep (indeg, ready')).1
            ((sortFin (aOutD g u)).foldl degStep (indeg, ready')).2 (order ++ [u]) := by
        simp only [topoGo]
        rw [hpop]
      subst hre
      have hnb_nd : (sortFin (aOutD g u)).Nodup := sortFin_nodup _
      have hfold1 : ∀ x, ((sortFin (aOutD g u)).foldl degStep (indeg, ready.erase u)).1 x =
          if x ∈ aOutD g u then indeg x - 1 else indeg x := by
        intro x
        rw [degFold_fst _ _ x hnb_nd]
        by_cases hx : x ∈ aOutD g u
        · rw [if_pos (mem_sortFin.mpr hx), if_pos hx]
        · rw [if_neg (fun hm => hx (mem_sortFin.mp hm)), if_neg hx]
      have hfold2 : ((sortFin (aOutD g u)).foldl degStep (indeg, ready.erase u)).2 =
          ready.erase u ++ (sortFin (aOutD g u)).filter (fun v => indeg v - 1 == 0) :=
        degFold_snd _ _ hnb_nd
      have hordF' : (order ++ [u]).toFinset = insert u order.toFinset :=
        toFinset_append_singleton order u
      have hnb_props : ∀ v ∈ aOutD g u, v ∈ g.nodes ∧ v ∉ order ∧ v ≠ u ∧ u ∈ aInD g v := by
        intro v hv
        have hvN : v ∈ g.nodes := hec u huN hv
        have hin : u ∈ aInD g v := (hsym u huN v hvN).mp hv
        have hvO : v ∉ order := by
          intro hvo
          exact huO (List.mem_toFinset.mp (hA5 v hvo hin))
        have hvu : v ≠ u := by
          intro he
          subst he
          exact huO (List.mem_toFinset.mp (huP hin))
        exact ⟨hvN, hvO, hvu, hin⟩
      have hond' : (order ++ [u]).Nodup := by
        rw [List.nodup_append]
        refine ⟨hond, List.nodup_singleton u, ?_⟩
        intro a ha hb
        rw [List.mem_singleton] at hb
        subst hb
        exact huO ha
      have hordN' : ∀ x ∈ order ++ [u], x ∈ g.nodes := by
        intro x hx
        rcases List.mem_append.mp hx with h | h
        · exact hordN x h
        · rw [List.mem_singleton] at h; exact h ▸ huN
      have hfuel' : g.nodes.card ≤ fuel + (order ++ [u]).length := by
        rw [List.length_append, List.length_singleton]
        omega
      have hmem_erase : ∀ x, x ∈ ready.erase u ↔ x ≠ u ∧ x ∈ ready :=
        fun x => List.Nodup.mem_erase_iff hrnd
      have hready' : ∀ x,
          x ∈ ready.erase u ++ (sortFin (aOutD g u)).filter (fun v => indeg v - 1 == 0) ↔
          x ∈ g.nodes ∧ x ∉ order ++ [u] ∧ aInD g x ⊆ (order ++ [u]).toFinset := by
        intro x
        rw [hordF']
        constructor
        · intro hx
          rcases List.mem_append.mp hx with hx | hx
          · obtain ⟨hxu, hxr⟩ := (hmem_erase x).mp hx
            obtain ⟨hxN, hxO, hxP⟩ := (hready x).mp hxr
            refine ⟨hxN, ?_, hxP.trans (Finset.subset_insert u _)⟩
            intro hm
            rcases List.mem_append.mp hm with h | h
            · exact hxO h
            · rw [List.mem_singleton] at h; exact hxu h
          · have hxmem := List.mem_filter.mp hx
            have hxa : x ∈ aOutD g u := mem_sortFin.mp hxmem.1
            have hcond : indeg x - 1 = 0 := by
              have h2 := hxmem.2
              simpa using h2
            obtain ⟨hxN, hxO, hxu, hxin⟩ := hnb_props x hxa
            have hdeg1 : ((aInD g x) \ order.toFinset).card = 1 := by
              have hdx := hdeg x hxN hxO
              omega
            have huPx : u ∈ (aInD g x) \ order.toFinset :=
              Finset.mem_sdiff.mpr ⟨hxin, fun hm => huO (List.mem_toFinset.mp hm)⟩
            have hset1 : (aInD g x) \ order.toFinset = {u} := by
              obtain ⟨a, ha⟩ := Finset.card_eq_one.mp hdeg1
              rw [ha] at huPx
              rw [ha, Finset.mem_singleton.mp huPx]
            refine ⟨hxN, ?_, ?_⟩
            · intro hm
              rcases List.mem_append.mp hm with h | h
              · exact hxO h
              · rw [List.mem_singleton] at h; exact hxu h
            · intro z hz
              by_cases hzF : z ∈ order.toFinset
              · exact Finset.mem_insert_of_mem hzF
              · have hzmem : z ∈ (aInD g x) \ order.toFinset := Finset.mem_sdiff.mpr ⟨hz, hzF⟩
                rw [hset1] at hzmem
                rw [Finset.mem_singleton.mp hzmem]
                exact Finset.mem_insert_self u _
        · rintro ⟨hxN, hxO', hxP⟩
          have hxu : x ≠ u := by
            intro he
            subst he
            exact hxO' (List.mem_append.mpr (Or.inr (List.mem_singleton.mpr rfl)))
          have hxO : x ∉ order := fun hm => hxO' (List.mem_append.mpr (Or.inl hm))
          by_cases hux : u ∈ aInD g x
          · have hxa : x ∈ aOutD g u := (hsym u huN x hxN).mpr hux
            apply List.mem_append.mpr
            right
            apply List.mem_filter.mpr
            refine ⟨mem_sortFin.mpr hxa, ?_⟩
            have hdegx := hdeg x hxN hxO
            have hsub1 : (aInD g x) \ order.toFinset ⊆ {u} := by
              intro z hz
              obtain ⟨hz1, hz2⟩ := Finset.mem_sdiff.mp hz
              rcases Finset.mem_insert.mp (hxP hz1) with h | h
              · exact Finset.mem_singleton.mpr h
              · exact absurd h hz2
            have huPx : u ∈ (aInD g x) \ order.toFinset :=
              Finset.mem_sdiff.mpr ⟨hux, fun hm => huO (List.mem_toFinset.mp hm)⟩
            have hcard1 : ((aInD g x) \ order.toFinset).card = 1 := by
              have hle := Finset.card_le_card hsub1
              rw [Finset.card_singleton] at hle
              have hpos : 0 < ((aInD g x) \ order.toFinset).card :=
                Finset.card_pos.mpr ⟨u, huPx⟩
              omega
            rw [hdegx, hcard1]
            decide
          · have hxPsub : aInD g x ⊆ order.toFinset := by
              intro z hz
              rcases Finset.mem_insert.mp (hxP hz) with h | h
              · exact absurd (h ▸ hz) hux
              · exact h
            apply List.mem_append.mpr
            left
            exact (hmem_erase x).mpr ⟨hxu, (hready x).mpr ⟨hxN, hxO, hxPsub⟩⟩
      have hrnd' : (ready.erase u ++
          (sortFin (aOutD g u)).filter (fun v => indeg v - 1 == 0)).Nodup := by
        rw [List.nodup_append]
        refine ⟨hrnd.erase u, hnb_nd.filter _, ?_⟩
        intro a ha hb
        obtain ⟨hau, har⟩ := (hmem_erase a).mp ha
        obtain ⟨haN, haO, haP⟩ := (hready a).mp har
        have haNb : a ∈ aOutD g u := mem_sortFin.mp (List.mem_filter.mp hb).1
        exact huO (List.mem_toFinset.mp (haP (hnb_props a haNb).2.2.2))
      have hdegF : ∀ v ∈ g.nodes, v ∉ order ++ [u] →
          ((sortFin (aOutD g u)).foldl degStep (indeg, ready.erase u)).1 v =
            (((aInD g v) \ (order ++ [u]).toFinset).card : ℤ) := by
        intro v hvN hvO'
        have hvu : v ≠ u := by
          intro he
          subst he
          exact hvO' (List.mem_append.mpr (Or.inr (List.mem_singleton.mpr rfl)))
        have hvO : v ∉ order := fun hm => hvO' (List.mem_append.mpr (Or.inl hm))
        rw [hfold1 v, hordF']
        have hsd : (aInD g v) \ insert u order.toFinset =
            ((aInD g v) \ order.toFinset).erase u := by
          ext z
          simp only [Finset.mem_sdiff, Finset.mem_erase, Finset.mem_insert]
          tauto
        rw [hsd]
        by_cases hv : v ∈ aOutD g u
        · rw [if_pos hv]
          have hin : u ∈ aInD g v := (hnb_props v hv).2.2.2
          have huPv : u ∈ (aInD g v) \ order.toFinset :=
            Finset.mem_sdiff.mpr ⟨hin, fun hm => huO (List.mem_toFinset.mp hm)⟩
          rw [Finset.card_erase_of_mem huPv]
          have hpos : 0 < ((aInD g v) \ order.toFinset).card :=
            Finset.card_pos.mpr ⟨u, huPv⟩
          rw [hdeg v hvN hvO]
          omega
        · rw [if_neg hv]
          have hnin : u ∉ aInD g v := fun hin => hv ((hsym u huN v hvN).mpr hin)
          have hnin2 : u ∉ (aInD g v) \ order.toFinset :=
            fun hm => hnin (Finset.mem_sdiff.mp hm).1
          rw [Finset.erase_eq_of_not_mem hnin2]
          exact hdeg v hvN hvO
      have hA5' : ∀ v ∈ order ++ [u], aInD g v ⊆ (order ++ [u]).toFinset := by
        intro v hv
        rw [hordF']
        rcases List.mem_append.mp hv with h | h
        · exact (hA5 v h).trans (Finset.subset_insert u _)
        · rw [List.mem_singleton] at h
          subst h
          exact huP.trans (Finset.subset_insert v _)
      have hA6' : ∀ a b, hasEdge g a b → b ∈ order ++ [u] →
          a ∈ order ++ [u] ∧ idx (order ++ [u]) a < idx (order ++ [u]) b := by
        intro a b he hb
        rcases List.mem_append.mp hb with hbo | hbo
        · obtain ⟨haO, hidx⟩ := hA6 a b he hbo
          refine ⟨List.mem_append.mpr (Or.inl haO), ?_⟩
          rw [idx_append_left [u] haO, idx_append_left [u] hbo]
          exact hidx
        · rw [List.mem_singleton] at hbo
          subst hbo
          have haN : a ∈ g.nodes := he.1
          have hain : a ∈ aInD g b := (hsym a haN b huN).mp he.2
          have haO : a ∈ order := List.mem_toFinset.mp (huP hain)
          refine ⟨List.mem_append.mpr (Or.inl haO), ?_⟩
          rw [idx_append_left [b] haO, idx_append_self huO]
          exact idx_lt_length haO
      rw [hout]
      exact ih _ _ _ hfuel' hond' hordN' (by rw [hfold2]; exact hrnd')
        (by rw [hfold2]; exact hready') hdegF hA5' hA6'

/-- C9: on a well-formed acyclic graph, `topological_sort` (no key function)
returns a duplicate-free ordering containing every node of the graph in which
the source of every edge appears strictly before its target. -/
theorem topological_sort_dag (g : Graph) (hec : EdgesClosed g) (hpc : ParentsClosed g)
    (hsym : SymAdj g) (hacy : Acyclic g) :
    (topological_sort g).Nodup ∧
    (∀ x, x ∈ topological_sort g ↔ x ∈ g.nodes) ∧
    ∀ u v, hasEdge g u v → idx (topological_sort g) u < idx (topological_sort g) v := by
  unfold topological_sort
  refine topoGo_spec g hec hpc hsym hacy g.nodes.card _ _ [] ?_ ?_ ?_ ?_ ?_ ?_ ?_ ?_
  · simp
  · exact List.nodup_nil
  · intro x hx; exact absurd hx (List.not_mem_nil x)
  · exact (sortFin_nodup g.nodes).filter _
  · intro x
    constructor
    · intro hx
      have h1 := List.mem_filter.mp hx
      have hxN := mem_sortFin.mp h1.1
      have hc : (aInD g x).card = 0 := by simpa using h1.2
      refine ⟨hxN, List.not_mem_nil x, ?_⟩
      rw [Finset.card_eq_zero.mp hc]
      exact Finset.empty_subset _
    · rintro ⟨hxN, _, hxP⟩
      apply List.mem_filter.mpr
      refine ⟨mem_sortFin.mpr hxN, ?_⟩
      have h0 : aInD g x = ∅ := Finset.subset_empty.mp hxP
      simp [h0]
  · intro v _ _
    simp
  · intro v hv; exact absurd hv (List.not_mem_nil v)
  · intro a b _ hb; exact absurd hb (List.not_mem_nil b)

/-- The two-node graph `gEx12` (nodes {1,2}, single edge (1,2)) is acyclic. -/
theorem gEx12_acyclic : Acyclic gEx12 := by
  intro a b hab
  obtain ⟨⟨haN, hbadj⟩, hr⟩ := hab
  have ha12 : a = 1 ∨ a = 2 := by
    have hn : gEx12.nodes = {1, 2} := by decide
    rw [hn] at haN
    simpa using haN
  rcases ha12 with h | h
  · subst h
    have hb : b = 2 := by
      have ho : aOutD gEx12 1 = {2} := by decide
      rw [ho] at hbadj
      simpa using hbadj
    subst hb
    have key : ∀ x, ReachI gEx12 2 x → x = 2 := by
      intro x h
      induction h with
      | refl => rfl
      | tail hr2 he ih =>
        rw [ih] at he
        have h2 := he.2
        have hout : aOutD gEx12 2 = ∅ := by decide
        rw [hout] at h2
        exact absurd h2 (Finset.not_mem_empty _)
    exact absurd (key 1 hr) (by decide)
  · subst h
    have hout : aOutD gEx12 2 = ∅ := by decide
    rw [hout] at hbadj
    exact absurd hbadj (Finset.not_mem_empty b)

/-- Witness for C9: the theorem applied to the concrete two-node DAG with edge
(1, 2); its topological sort is `[1, 2]`. -/
theorem topological_sort_dag_witness :
    (EdgesClosed gEx12 ∧ ParentsClosed gEx12 ∧ SymAdj gEx12 ∧ Acyclic gEx12 ∧
      topological_sort gEx12 = [1, 2]) ∧
    ((topological_sort gEx12).Nodup ∧
     (∀ x, x ∈ topological_sort gEx12 ↔ x ∈ gEx12.nodes) ∧
     ∀ u v, hasEdge gEx12 u v →
       idx (topological_sort gEx12) u < idx (topological_sort gEx12) v) :=
  ⟨⟨by decide, by decide, by decide, gEx12_acyclic, by decide⟩,
    topological_sort_dag gEx12 (by decide) (by decide) (by decide) gEx12_acyclic⟩
